import Mathlib

/-!
Verification of the link-maintenance tools of a file-per-entry documentation
corpus (Zim-wiki style).  The corpus is modelled as a list of documents, each
identified by its directory segments (relative to the corpus root) and its
stem (filename without the `.txt` suffix).  Text is modelled as `List Char`
so that every definition evaluates inside the kernel.

Embedded components:
 * `resolve_link_target` / `resolve_link`  — the link resolvers of
   verify_forward_links.py and verify_backlinks.py;
 * `get_correct_link_format` / `get_link_format` — the canonical formatters;
 * `find_all_links` and friends — the regex link scanners;
 * `get_content_section` — the Backlinks-section split;
 * `check_and_fix_file` and the main exit computations;
 * `fix_backlinks_in_file` — the backlink reconciler;
 * `build_element_index` / `fix_file_chunks` — fix_all_links.py;
 * `literal_link_exists` / `check_file_broken` — check_links.py and
   find_broken_links.py.

Idealisations (noted where they matter): path segments are opaque strings
(`/` inside a segment is an ordinary character), empty and `"."` segments are
dropped by path joining exactly as pathlib does, and no corpus file is
literally named `.txt`.
-/

/-- Text is a list of characters, mirroring Python `str` positions 1:1. -/
abbrev Str := List Char

/-- One corpus file: directory segments from the corpus root, plus the stem
(filename without the trailing `.txt`). -/
structure Doc where
  dirs : List Str
  stem : Str
deriving DecidableEq, Repr

/-- Python `':' in link_path`. -/
def hasColon : Str → Bool
  | [] => false
  | c :: rest => c == ':' || hasColon rest

/-- Python `s.split(':')` (never returns an empty list). -/
def splitOnColon : Str → List Str
  | [] => [[]]
  | c :: rest =>
    if c == ':' then [] :: splitOnColon rest
    else
      match splitOnColon rest with
      | [] => [[c]]
      | h :: t => (c :: h) :: t

/-- Python `':'.join(parts)`. -/
def joinColon : List Str → Str
  | [] => []
  | [p] => p
  | p :: q :: rest => p ++ ':' :: joinColon (q :: rest)

/-- The name index: all corpus files sharing a stem, in discovery order
(`name_to_files` in both verifiers). -/
def nameToFiles (corpus : List Doc) (name : Str) : List Doc :=
  corpus.filter (fun f => f.stem == name)

/-- Which colon-separated segments survive pathlib joining: empty strings and
single dots are collapsed away by `Path.__truediv__`. -/
def dirSegKeep (s : Str) : Bool := !(s.isEmpty || s == ['.'])

/-- The file a qualified link denotes literally: walk the directory segments
from the corpus root and append `.txt` to the final segment. -/
def pathOfParts (parts : List Str) : Doc :=
  Doc.mk ((parts.dropLast).filter dirSegKeep) (parts.getLastD [])

/-- The direct (non-fallback) lookup shared by both resolvers: qualified paths
from the corpus root, bare names in the source document's own directory. -/
def directLookup (corpus : List Doc) (lp : Str) (source : Doc) : Option Doc :=
  if hasColon lp then
    let target := pathOfParts (splitOnColon lp)
    if target ∈ corpus then some target else none
  else
    let target := Doc.mk source.dirs lp
    if target ∈ corpus then some target else none

/-- Name used for the name-index fallback: the final segment of a qualified
target, or the bare target itself. -/
def fallbackName (lp : Str) : Str :=
  if hasColon lp then (splitOnColon lp).getLastD [] else lp

/-- Tagged outcome of resolving one link. -/
inductive Resolution where
  | Resolved (target : Doc)
  | Ambiguous (candidates : List Doc)
  | Unresolved
deriving DecidableEq, Repr

/-- `resolve_link_target` from verify_forward_links.py: direct lookup first,
then the name-index fallback (unique match resolves, several are ambiguous). -/
def resolve_link_target (corpus : List Doc) (lp : Str) (source : Doc) : Resolution :=
  match directLookup corpus lp source with
  | some t => .Resolved t
  | none =>
    match nameToFiles corpus (fallbackName lp) with
    | [] => .Unresolved
    | [t] => .Resolved t
    | ts => .Ambiguous ts

/-- Modelled from the spec's fallback wording: zero matches are Unresolved,
exactly one match is Resolved, more than one is Ambiguous with all
candidates. -/
def nameIndexFallback (corpus : List Doc) (name : Str) : Resolution :=
  let found := nameToFiles corpus name
  if found.length = 0 then .Unresolved
  else if found.length = 1 then .Resolved (found.headD (Doc.mk [] []))
  else .Ambiguous found

/-- Modelled from the spec's resolution-order wording (section 4.3), for
comparison with `resolve_link_target`. -/
def resolveSpecOrder (corpus : List Doc) (lp : Str) (source : Doc) : Resolution :=
  if hasColon lp then
    let parts := splitOnColon lp
    if pathOfParts parts ∈ corpus then .Resolved (pathOfParts parts)
    else nameIndexFallback corpus (parts.getLastD [])
  else
    if Doc.mk source.dirs lp ∈ corpus then .Resolved (Doc.mk source.dirs lp)
    else nameIndexFallback corpus lp

/-- Render a wiki link `[[path]]` or `[[path|label]]`. -/
def renderWikiLink (path : Str) (label : Option Str) : Str :=
  match label with
  | some l => '[' :: '[' :: (path ++ '|' :: (l ++ [']', ']']))
  | none => '[' :: '[' :: (path ++ [']', ']'])

/-- The inner target path that `get_correct_link_format` emits. -/
def formattedTarget (source target : Doc) : Str :=
  if source.dirs = target.dirs then target.stem
  else joinColon (target.dirs ++ [target.stem])

/-- `get_correct_link_format` from verify_forward_links.py.  A display label
is kept only when truthy (non-empty) and different from the target stem;
cross-directory links always carry a label. -/
def get_correct_link_format (source target : Doc) (display : Option Str) : Str :=
  let target_name := target.stem
  let custom : Option Str :=
    match display with
    | some d => if d = [] then none else if d = target_name then none else some d
    | none => none
  if source.dirs = target.dirs then
    match custom with
    | some d => renderWikiLink target_name (some d)
    | none => renderWikiLink target_name none
  else
    let path := joinColon (target.dirs ++ [target.stem])
    match custom with
    | some d => renderWikiLink path (some d)
    | none => renderWikiLink path (some target_name)

/-- Modelled from the spec's formatter wording (section 4.4), for comparison
with `get_correct_link_format`. -/
def formatSpecRule (source target : Doc) (display : Option Str) : Str :=
  if source.dirs = target.dirs then
    match display with
    | some d =>
      if d = target.stem then renderWikiLink target.stem none
      else renderWikiLink target.stem (some d)
    | none => renderWikiLink target.stem none
  else
    let q := joinColon (target.dirs ++ [target.stem])
    match display with
    | some d =>
      if d = target.stem then renderWikiLink q (some target.stem)
      else renderWikiLink q (some d)
    | none => renderWikiLink q (some target.stem)

/-- One scanned link occurrence: character span within the scanned text, raw
target, optional display label (mirrors the dict built by `find_all_links`). -/
structure LinkInfo where
  start : Nat
  stop : Nat
  target : Str
  label : Option Str
deriving DecidableEq, Repr

/-- Attempt the forward-link regex at the head of the text (with the `(?!\+)`
child-page exclusion).  On success returns target, optional label and the
matched length.  The regex target class excludes `]` and `|`, the label class
excludes `]`, so maximal munch is exactly the regex semantics. -/
def tryMatch (cs : Str) : Option (Str × Option Str × Nat) :=
  match cs with
  | c1 :: c2 :: rest =>
    if c1 = '[' ∧ c2 = '[' ∧ rest.headD ' ' ≠ '+' then
      let tgt := rest.takeWhile (fun c => !(c == ']' || c == '|'))
      let rest2 := rest.dropWhile (fun c => !(c == ']' || c == '|'))
      if tgt.isEmpty then none
      else if rest2.headD ' ' = '|' then
        let lab := rest2.tail.takeWhile (fun c => !(c == ']'))
        let rest4 := rest2.tail.dropWhile (fun c => !(c == ']'))
        if lab.isEmpty then none
        else if rest4.headD ' ' = ']' ∧ rest4.tail.headD ' ' = ']' then
          some (tgt, some lab, tgt.length + lab.length + 5)
        else none
      else if rest2.headD ' ' = ']' ∧ rest2.tail.headD ' ' = ']' then
        some (tgt, none, tgt.length + 4)
      else none
    else none
  | _ => none

/-- Attempt the unrestricted link regex (no child-page exclusion), as used by
check_links.py, find_broken_links.py and the backlink-block parser. -/
def tryMatchAll (cs : Str) : Option (Str × Option Str × Nat) :=
  match cs with
  | c1 :: c2 :: rest =>
    if c1 = '[' ∧ c2 = '[' then
      let tgt := rest.takeWhile (fun c => !(c == ']' || c == '|'))
      let rest2 := rest.dropWhile (fun c => !(c == ']' || c == '|'))
      if tgt.isEmpty then none
      else if rest2.headD ' ' = '|' then
        let lab := rest2.tail.takeWhile (fun c => !(c == ']'))
        let rest4 := rest2.tail.dropWhile (fun c => !(c == ']'))
        if lab.isEmpty then none
        else if rest4.headD ' ' = ']' ∧ rest4.tail.headD ' ' = ']' then
          some (tgt, some lab, tgt.length + lab.length + 5)
        else none
      else if rest2.headD ' ' = ']' ∧ rest2.tail.headD ' ' = ']' then
        some (tgt, none, tgt.length + 4)
      else none
    else none
  | _ => none

/-- `re.finditer` for the forward-link pattern: try a match at every offset,
continuing after each match (matches never overlap).  Every step consumes at
least one character, so fuel equal to the text length is always enough; fuel
keeps the recursion structural and kernel-evaluable. -/
def find_all_links_aux (fuel : Nat) (cs : Str) (pos : Nat) : List LinkInfo :=
  match fuel with
  | 0 => []
  | fuel2 + 1 =>
    match cs with
    | [] => []
    | c :: rest =>
      match tryMatch (c :: rest) with
      | some (tgt, lab, len) =>
        { start := pos, stop := pos + len, target := tgt, label := lab } ::
          find_all_links_aux fuel2 (List.drop (len - 1) rest) (pos + len)
      | none => find_all_links_aux fuel2 rest (pos + 1)

/-- `find_all_links` from verify_forward_links.py. -/
def find_all_links (content : Str) : List LinkInfo :=
  find_all_links_aux content.length content 0

/-- `re.finditer` for the unrestricted pattern. -/
def findLinksAllAux (fuel : Nat) (cs : Str) (pos : Nat) : List LinkInfo :=
  match fuel with
  | 0 => []
  | fuel2 + 1 =>
    match cs with
    | [] => []
    | c :: rest =>
      match tryMatchAll (c :: rest) with
      | some (tgt, lab, len) =>
        { start := pos, stop := pos + len, target := tgt, label := lab } ::
          findLinksAllAux fuel2 (List.drop (len - 1) rest) (pos + len)
      | none => findLinksAllAux fuel2 rest (pos + 1)

/-- All link occurrences of the unrestricted pattern in a whole text. -/
def findLinksAll (content : Str) : List LinkInfo :=
  findLinksAllAux content.length content 0

/-- First index at which `pat` occurs in the text (Python `re.search` of a
literal pattern). -/
def findSubstr (pat cs : Str) : Option Nat :=
  match cs with
  | [] => if pat.isEmpty then some 0 else none
  | c :: rest =>
    if pat.isPrefixOf (c :: rest) then some 0 else (findSubstr pat rest).map (· + 1)

/-- The Backlinks header literal searched by both verifiers. -/
def backlinksHeader : Str := "===== Backlinks =====".data

/-- The header-plus-newline literal required by the backlink reconciler. -/
def backlinksHeaderNL : Str := "===== Backlinks =====\n".data

/-- `get_content_section` from verify_forward_links.py: everything from the
first occurrence of the header literal to end of file is the backlinks
section; the rest is content. -/
def get_content_section (content : Str) : Str × Str :=
  match findSubstr backlinksHeader content with
  | some i => (content.take i, content.drop i)
  | none => (content, [])

/-- `extract_links` from verify_backlinks.py: cut at the first header
occurrence, then collect the raw targets of the forward-link pattern. -/
def extract_links (content : Str) : List Str :=
  let cut :=
    match findSubstr backlinksHeader content with
    | some i => content.take i
    | none => content
  (find_all_links cut).map (fun li => li.target)

/-- One issue found in a file by the forward-link reconciler. -/
inductive Issue where
  | unresolved (li : LinkInfo)
  | ambiguous (li : LinkInfo) (candidates : List Doc)
  | wrong_format (li : LinkInfo) (target : Doc) (correct : Str)
deriving DecidableEq, Repr

/-- Classify one scanned link exactly as the loop body of
`check_and_fix_file` does. -/
def issueOfLink (corpus : List Doc) (source : Doc) (li : LinkInfo) : Option Issue :=
  match resolve_link_target corpus li.target source with
  | .Unresolved => some (.unresolved li)
  | .Ambiguous cs => some (.ambiguous li cs)
  | .Resolved t =>
    let correct := get_correct_link_format source t li.label
    if renderWikiLink li.target li.label = correct then none
    else some (.wrong_format li t correct)

/-- All issues of a file's content section, in link order. -/
def computeIssues (corpus : List Doc) (source : Doc) (content_section : Str) : List Issue :=
  (find_all_links content_section).filterMap (issueOfLink corpus source)

/-- A pending text replacement: span in the content section plus the canonical
replacement text. -/
structure LinkFix where
  start : Nat
  stop : Nat
  repl : Str
deriving DecidableEq, Repr

/-- The fixable (wrong-format) issues, as replacements, in link order. -/
def fixesOf (issues : List Issue) : List LinkFix :=
  issues.filterMap (fun i =>
    match i with
    | .wrong_format li _ c => some (LinkFix.mk li.start li.stop c)
    | _ => none)

/-- Apply one replacement to the text. -/
def spliceFix (content : Str) (f : LinkFix) : Str :=
  content.take f.start ++ f.repl ++ content.drop f.stop

/-- Insert into a start-descending list (Python `list.sort(reverse=True)`). -/
def insertDescFix (x : LinkFix) : List LinkFix → List LinkFix
  | [] => [x]
  | h :: t => if h.start < x.start then x :: h :: t else h :: insertDescFix x t

/-- Sort fixes by start position, descending. -/
def sortDescFixes (l : List LinkFix) : List LinkFix :=
  l.foldl (fun acc x => insertDescFix x acc) []

/-- `check_and_fix_file` from verify_forward_links.py.  Returns the issue
count, the fixed count, and the file content written back (`none` when the
file is not rewritten). -/
def check_and_fix_file (corpus : List Doc) (source : Doc) (content : Str)
    (fix_mode : Bool) : Nat × Nat × Option Str :=
  let cs := (get_content_section content).1
  let bs := (get_content_section content).2
  let issues := computeIssues corpus source cs
  if issues.isEmpty then (0, 0, none)
  else
    if fix_mode then
      let fixable := fixesOf issues
      let new_content := (sortDescFixes fixable).foldl spliceFix cs
      if fixable.length > 0 then (issues.length, fixable.length, some (new_content ++ bs))
      else (issues.length, 0, none)
    else (issues.length, 0, none)

/-- Reference semantics of the one-pass rewrite: emit the untouched segment
before each fix, then its replacement, walking the original text left to
right from the cursor `pos`. -/
def applyAscFrom (content : Str) (pos : Nat) : List LinkFix → Str
  | [] => content.drop pos
  | f :: rest => (content.take f.start).drop pos ++ f.repl ++ applyAscFrom content f.stop rest

/-- Total issues found by a whole forward-verifier run over the corpus. -/
def forward_total_issues (files : List (Doc × Str)) (fix_mode : Bool) : Nat :=
  (files.map (fun f => (check_and_fix_file (files.map (fun g => g.1)) f.1 f.2 fix_mode).1)).sum

/-- Total issues fixed by a whole forward-verifier run over the corpus. -/
def forward_total_fixed (files : List (Doc × Str)) (fix_mode : Bool) : Nat :=
  (files.map (fun f => (check_and_fix_file (files.map (fun g => g.1)) f.1 f.2 fix_mode).2.1)).sum

/-- Exit code of `main` in verify_forward_links.py: 0 when no issue was
found, 1 otherwise. -/
def forward_main_exit (files : List (Doc × Str)) (fix_mode : Bool) : Nat :=
  if forward_total_issues files fix_mode = 0 then 0 else 1

/-- `resolve_link` from verify_backlinks.py: same direct lookup, but the
fallback only succeeds on a unique name match (ambiguity yields `none`). -/
def resolve_link (corpus : List Doc) (lp : Str) (source : Doc) : Option Doc :=
  match directLookup corpus lp source with
  | some t => some t
  | none =>
    match nameToFiles corpus (fallbackName lp) with
    | [t] => some t
    | _ => none

/-- `get_link_format` from verify_backlinks.py (no display-label handling). -/
def get_link_format (source target : Doc) : Str :=
  if source.dirs = target.dirs then renderWikiLink target.stem none
  else renderWikiLink (joinColon (target.dirs ++ [target.stem])) (some target.stem)

/-- Code-point comparison of strings, as Python string `<`. -/
def strLt : Str → Str → Bool
  | [], [] => false
  | [], _ :: _ => true
  | _ :: _, [] => false
  | a :: as, b :: bs =>
    if a.toNat < b.toNat then true
    else if b.toNat < a.toNat then false
    else strLt as bs

/-- Stable insertion keeping earlier equal-stem entries first. -/
def insertByStem (l : List Doc) (x : Doc) : List Doc :=
  match l with
  | [] => [x]
  | h :: t => if strLt x.stem h.stem then x :: h :: t else h :: insertByStem t x

/-- Python `sorted(key=lambda x: x.stem)`: stable, ascending by stem. -/
def sortByStem (l : List Doc) : List Doc := l.foldl insertByStem []

/-- Python `'\n'.join`. -/
def joinNL : List Str → Str
  | [] => []
  | [x] => x
  | x :: y :: rest => x ++ '\n' :: joinNL (y :: rest)

/-- The sentinel body written when a file has no expected backlinks. -/
def noBacklinksBody : Str := "(no backlinks)\n".data

/-- `fix_backlinks_in_file` from verify_backlinks.py: `none` when the file has
no Backlinks block (nothing is written), otherwise the full new file content. -/
def fix_backlinks_in_file (content : Str) (target_file : Doc)
    (expected_sources : List Doc) : Option Str :=
  match findSubstr backlinksHeaderNL content with
  | none => none
  | some i =>
    let content_before := content.take i
    let new_backlinks :=
      if expected_sources.isEmpty then noBacklinksBody
      else joinNL ((sortByStem expected_sources).map (fun s => get_link_format target_file s)) ++ ['\n']
    some (content_before ++ backlinksHeaderNL ++ new_backlinks)

/-- Keep first occurrences (the effect Python obtains via `set`; tie order
among equal elements is irrelevant to the properties proved here). -/
def dedupFirst (l : List Doc) : List Doc :=
  l.foldl (fun acc x => if x ∈ acc then acc else acc ++ [x]) []

/-- All sources whose links resolve to `target`, with multiplicity, in corpus
order — the `reverse_links` accumulation of verify_backlinks.py. -/
def reverseSourcesFor (files : List (Doc × Str)) (target : Doc) : List Doc :=
  (files.map (fun f =>
    (extract_links f.2).filterMap (fun lp =>
      match resolve_link (files.map (fun g => g.1)) lp f.1 with
      | some t => if t = target then some f.1 else none
      | none => none))).flatten

/-- `sorted(set(reverse_links.get(target, [])), key=stem)`. -/
def expectedSources (files : List (Doc × Str)) (target : Doc) : List Doc :=
  sortByStem (dedupFirst (reverseSourcesFor files target))

/-- Python whitespace for `str.strip()` (ASCII range). -/
def isPySpace (c : Char) : Bool :=
  c == ' ' || c == '\t' || c == '\n' || c == '\r' || c == '\x0b' || c == '\x0c'

/-- Python `str.strip()`. -/
def pyStrip (s : Str) : Str :=
  ((s.dropWhile isPySpace).reverse.dropWhile isPySpace).reverse

/-- Python `str.lower()` (ASCII; all header literals are ASCII). -/
def pyLower (s : Str) : Str := s.map Char.toLower

/-- Python `needle in haystack` on strings. -/
def containsSub (pat s : Str) : Bool := (findSubstr pat s).isSome

/-- Bool list-as-set inclusion. -/
def listSubsetB (a b : List Doc) : Bool := a.all (fun x => decide (x ∈ b))

/-- Bool list-as-set equality (Python `set(a) == set(b)`). -/
def setEqB (a b : List Doc) : Bool := listSubsetB a b && listSubsetB b a

/-- The backlinks-block body of a file as the backlink verifier's main loop
sees it (`none` when the file has no block and is skipped). -/
def blockBody (content : Str) : Option Str :=
  match findSubstr backlinksHeaderNL content with
  | some i => some (content.drop (i + backlinksHeaderNL.length))
  | none => none

/-- Whether the backlink verifier records a discrepancy for one file:
the resolved current-backlink set differs from the expected inbound set, or
the block claims to be empty while the expected set is not. -/
def backlinkFileHasIssue (files : List (Doc × Str)) (tf : Doc) (content : Str) : Bool :=
  match blockBody content with
  | none => false
  | some body0 =>
    let body := pyStrip body0
    let current_links := (findLinksAll body).map (fun li => li.target)
    let corpus := files.map (fun g => g.1)
    let expected := expectedSources files tf
    let current_set := current_links.filterMap (fun lp => resolve_link corpus lp tf)
    let is_no_backlinks :=
      containsSub ("no backlinks".data) (pyLower body) ||
      containsSub ("root production".data) (pyLower body)
    !(setEqB current_set expected) || (is_no_backlinks && !expected.isEmpty)

/-- Exit code of `main` in verify_backlinks.py: 1 when any file has a
discrepancy (whether or not `--fix` then repaired it), else 0. -/
def backlink_main_exit (files : List (Doc × Str)) : Nat :=
  if (files.filter (fun f => backlinkFileHasIssue files f.1 f.2)).isEmpty then 0 else 1

/-- A file's text as fix_all_links.py transforms it: `re.sub` over the link
pattern maps each link occurrence and leaves the interleaved text alone, so
content is modelled as the alternation of plain text and link occurrences. -/
inductive Chunk where
  | text (s : Str)
  | link (target : Str) (label : Option Str)
deriving DecidableEq, Repr

/-- A source file as fix_all_links.py sees it.  `grammarElement` holds the
result of `re.search(r'^([a-z0-9_][a-z0-9_]*)\s*::=', content, re.M)` — the
first grammar-production name declared in the file, carried as data since the
claims concern the index and rewrite logic, not that regex. -/
structure SrcFile where
  path : Doc
  grammarElement : Option Str
  chunks : List Chunk
deriving DecidableEq, Repr

/-- `rel_path[:-4].replace('/', ':')`. -/
def zimPathOf (d : Doc) : Str := joinColon (d.dirs ++ [d.stem])

/-- Overwrite entry `k` of the element index. -/
def indexInsertOverwrite (idx : Str → Option Str) (k v : Str) : Str → Option Str :=
  fun n => if n = k then some v else idx n

/-- Add entry `k` only when absent (`if base_name not in elements`). -/
def indexInsertIfAbsent (idx : Str → Option Str) (k v : Str) : Str → Option Str :=
  fun n => if n = k then some ((idx k).getD v) else idx n

/-- `build_element_index` from fix_all_links.py: per file (in walk order), the
`::=`-declared element name overwrites unconditionally, then the filename
(spaces replaced by underscores) is added only if absent. -/
def build_element_index (files : List SrcFile) : Str → Option Str :=
  files.foldl (fun idx f =>
    let zim := zimPathOf f.path
    let idx2 :=
      match f.grammarElement with
      | some name => indexInsertOverwrite idx name zim
      | none => idx
    let base := f.path.stem.map (fun c => if c = ' ' then '_' else c)
    indexInsertIfAbsent idx2 base zim) (fun _ => none)

/-- `replace_link` from fix_all_links.py applied to one link occurrence. -/
def replaceLinkChunk (corpus : List Doc) (elements : Str → Option Str)
    (target : Str) (label : Option Str) : Chunk :=
  if target.headD ' ' == '+' then Chunk.link target label
  else
    let step : Option Str :=
      if hasColon target then
        if pathOfParts (splitOnColon target) ∈ corpus then none
        else some ((splitOnColon target).getLastD [])
      else some target
    match step with
    | none => Chunk.link target label
    | some name =>
      match elements name with
      | some zim =>
        let lab :=
          match label with
          | some l => if l = [] then name else l
          | none => name
        Chunk.link zim (some lab)
      | none => Chunk.link target label

/-- `fix_file` from fix_all_links.py, on the chunked content (the file is
written back iff the result differs). -/
def fix_file_chunks (corpus : List Doc) (elements : Str → Option Str)
    (chunks : List Chunk) : List Chunk :=
  chunks.map (fun c =>
    match c with
    | Chunk.text s => Chunk.text s
    | Chunk.link t l => replaceLinkChunk corpus elements t l)

/-- `link_path.replace(':', '/') + '.txt'` exists under the corpus root, as
check_links.py and find_broken_links.py test it.  A leading colon makes
`os.path.join` restart from the filesystem root, which is never a corpus
file. -/
def literal_link_exists (corpus : List Doc) (lp : Str) : Bool :=
  if lp.headD ' ' == ':' then false
  else decide (pathOfParts (splitOnColon lp) ∈ corpus)

/-- `check_file` from find_broken_links.py: the broken links of a file, i.e.
every occurrence of the unrestricted pattern whose literal path does not
exist.  check_links.py prints BROKEN for exactly these and OK for the rest. -/
def check_file_broken (corpus : List Doc) (content : Str) : List LinkInfo :=
  (findLinksAll content).filter (fun li => !(literal_link_exists corpus li.target))

/-- The spans of a scan result: in order, non-overlapping, non-empty, inside
`[lo, hi]`. -/
def spansChained (lo hi : Nat) : List LinkInfo → Prop
  | [] => True
  | li :: rest => lo ≤ li.start ∧ li.start < li.stop ∧ li.stop ≤ hi ∧ spansChained li.stop hi rest

/-- The spans of a fix list: in order, non-overlapping, non-empty, inside
`[lo, hi]`. -/
def chainedFixes (lo hi : Nat) : List LinkFix → Prop
  | [] => True
  | f :: rest => lo ≤ f.start ∧ f.start < f.stop ∧ f.stop ≤ hi ∧ chainedFixes f.stop hi rest

/-- Ascending by stem: no later element is strictly below an earlier one. -/
def stemAscending (l : List Doc) : Prop :=
  l.Pairwise (fun a b => strLt b.stem a.stem = false)

/-- C1: the resolver follows the spec's order — qualified walk from the
corpus root, else same-directory lookup, then the name-index fallback with
zero/one/many classification — first success winning. -/
theorem resolve_matches_spec_order (corpus : List Doc) (lp : Str) (source : Doc) :
    resolve_link_target corpus lp source = resolveSpecOrder corpus lp source := by
  unfold resolve_link_target resolveSpecOrder directLookup nameIndexFallback fallbackName
  cases hc : hasColon lp with
  | true =>
    simp only [hc, if_true]
    by_cases hm : pathOfParts (splitOnColon lp) ∈ corpus
    · simp [hm]
    · simp only [hm, if_false]
      rcases h : nameToFiles corpus ((splitOnColon lp).getLastD []) with _ | ⟨t, _ | ⟨u, ts⟩⟩ <;>
        simp [h]
  | false =>
    simp only [hc, if_false, Bool.false_eq_true]
    by_cases hm : Doc.mk source.dirs lp ∈ corpus
    · simp [hm]
    · simp only [hm, if_false]
      rcases h : nameToFiles corpus lp with _ | ⟨t, _ | ⟨u, ts⟩⟩ <;> simp [h]

/-- C2: a qualified link whose literal path does not exist, but whose final
segment names exactly one corpus file, resolves to that file. -/
theorem qualified_fallback_unique_resolves (corpus : List Doc) (lp : Str) (source t : Doc)
    (h1 : hasColon lp = true)
    (h2 : pathOfParts (splitOnColon lp) ∉ corpus)
    (h3 : nameToFiles corpus ((splitOnColon lp).getLastD []) = [t]) :
    resolve_link_target corpus lp source = Resolution.Resolved t := by
  unfold resolve_link_target directLookup fallbackName
  rw [List.getLastD_eq_getLast?] at h3
  simp [h1, h2, h3]

/-- C2 witness: `[[a:b:c]]` with no `a/b/c.txt` but a unique `x/c.txt`. -/
theorem qualified_fallback_unique_resolves_witness :
    resolve_link_target [Doc.mk [['x']] ['c']] "a:b:c".data (Doc.mk [] ['s'])
      = Resolution.Resolved (Doc.mk [['x']] ['c']) :=
  qualified_fallback_unique_resolves _ _ _ _ (by decide) (by decide) (by decide)

/-- C3: the canonical formatter follows the spec's rule (same directory gives
the bare form, labelled only by a differing label; different directories give
the qualified colon-joined path, always labelled), and the output depends on
the source only through its directory.  Labels produced by the link parser
are never empty, whence the hypothesis. -/
theorem format_canonical_spec (source target : Doc) (display : Option Str)
    (hd : display ≠ some []) :
    get_correct_link_format source target display = formatSpecRule source target display ∧
    ∀ s2 : Doc, s2.dirs = source.dirs →
      get_correct_link_format s2 target display = get_correct_link_format source target display := by
  constructor
  · unfold get_correct_link_format formatSpecRule
    cases display with
    | none => simp
    | some d =>
      by_cases h0 : d = []
      · exact absurd (by rw [h0]) hd
      · by_cases h1 : d = target.stem <;> by_cases h2 : source.dirs = target.dirs <;>
          simp [h0, h1, h2]
  · intro s2 h
    unfold get_correct_link_format
    rw [h]

/-- C3 witness: a cross-directory target with a custom label. -/
theorem format_canonical_spec_witness :
    get_correct_link_format (Doc.mk [] ['s']) (Doc.mk [['d']] ['t']) (some ['x'])
      = formatSpecRule (Doc.mk [] ['s']) (Doc.mk [['d']] ['t']) (some ['x']) :=
  (format_canonical_spec _ _ _ (by decide)).1

theorem headD_marker_ne_nil {l : Str} {c : Char} (h : l.headD ' ' = c) (hc : ¬ c = ' ') :
    1 ≤ l.length := by
  cases l with
  | nil => simp at h; exact absurd h.symm hc
  | cons a t => simp

theorem tryMatch_length {cs tgt lab n} (h : tryMatch cs = some (tgt, lab, n)) :
    1 ≤ n ∧ n ≤ cs.length := by
  rcases cs with _ | ⟨c1, _ | ⟨c2, rest⟩⟩
  · simp [tryMatch] at h
  · simp [tryMatch] at h
  · have hsplit : (rest.takeWhile (fun c => !(c == ']' || c == '|'))).length +
        (rest.dropWhile (fun c => !(c == ']' || c == '|'))).length = rest.length := by
      rw [← List.length_append, List.takeWhile_append_dropWhile]
    simp only [tryMatch] at h
    split at h
    · split at h
      · exact absurd h (by simp)
      · split at h
        · split at h
          · exact absurd h (by simp)
          · split at h
            · rename_i hpipe hlab hrr
              have h2 : ((rest.dropWhile (fun c => !(c == ']' || c == '|'))).tail.takeWhile
                    (fun c => !(c == ']'))).length +
                  ((rest.dropWhile (fun c => !(c == ']' || c == '|'))).tail.dropWhile
                    (fun c => !(c == ']'))).length
                  = (rest.dropWhile (fun c => !(c == ']' || c == '|'))).tail.length := by
                rw [← List.length_append, List.takeWhile_append_dropWhile]
              have h3 : 1 ≤ (rest.dropWhile (fun c => !(c == ']' || c == '|'))).length :=
                headD_marker_ne_nil hpipe (by decide)
              have h4 : 1 ≤ ((rest.dropWhile (fun c => !(c == ']' || c == '|'))).tail.dropWhile
                  (fun c => !(c == ']'))).length :=
                headD_marker_ne_nil hrr.1 (by decide)
              have h5 : 1 ≤ ((rest.dropWhile (fun c => !(c == ']' || c == '|'))).tail.dropWhile
                  (fun c => !(c == ']'))).tail.length :=
                headD_marker_ne_nil hrr.2 (by decide)
              have h6 := List.length_tail
                ((rest.dropWhile (fun c => !(c == ']' || c == '|'))).tail.dropWhile
                  (fun c => !(c == ']')))
              have h7 := List.length_tail (rest.dropWhile (fun c => !(c == ']' || c == '|')))
              simp only [Option.some.injEq, Prod.mk.injEq] at h
              obtain ⟨-, -, hn⟩ := h
              simp only [List.length_cons]
              omega
            · exact absurd h (by simp)
        · split at h
          · rename_i hnopipe hrr
            have h4 : 1 ≤ (rest.dropWhile (fun c => !(c == ']' || c == '|'))).length :=
              headD_marker_ne_nil hrr.1 (by decide)
            have h5 : 1 ≤ (rest.dropWhile (fun c => !(c == ']' || c == '|'))).tail.length :=
              headD_marker_ne_nil hrr.2 (by decide)
            have h6 := List.length_tail (rest.dropWhile (fun c => !(c == ']' || c == '|')))
            simp only [Option.some.injEq, Prod.mk.injEq] at h
            obtain ⟨-, -, hn⟩ := h
            simp only [List.length_cons]
            omega
          · exact absurd h (by simp)
    · exact absurd h (by simp)

theorem spansChained_mono {l : List LinkInfo} :
    ∀ {lo lo2 hi hi2 : Nat}, lo2 ≤ lo → hi ≤ hi2 →
      spansChained lo hi l → spansChained lo2 hi2 l := by
  induction l with
  | nil => intro lo lo2 hi hi2 h1 h2 h3; trivial
  | cons li rest ih =>
    intro lo lo2 hi hi2 h1 h2 h3
    obtain ⟨a, b, c, d⟩ := h3
    exact ⟨le_trans h1 a, b, le_trans c h2, ih le_rfl h2 d⟩

theorem spansChained_stop_le {l : List LinkInfo} :
    ∀ {lo hi : Nat}, spansChained lo hi l → ∀ li ∈ l, li.start < li.stop ∧ li.stop ≤ hi := by
  induction l with
  | nil => intro lo hi h li hm; simp at hm
  | cons x rest ih =>
    intro lo hi h li hm
    obtain ⟨a, b, c, d⟩ := h
    rcases List.mem_cons.mp hm with h1 | h1
    · subst h1; exact ⟨b, c⟩
    · exact ih d li h1

theorem find_all_links_aux_chained :
    ∀ (fuel : Nat) (cs : Str) (pos : Nat), cs.length ≤ fuel →
      spansChained pos (pos + cs.length) (find_all_links_aux fuel cs pos) := by
  intro fuel
  induction fuel with
  | zero =>
    intro cs pos h
    rw [find_all_links_aux]
    trivial
  | succ fuel2 ih =>
    intro cs pos h
    rcases cs with _ | ⟨c, rest⟩
    · rw [find_all_links_aux]
      trivial
    · rcases hm : tryMatch (c :: rest) with _ | ⟨tgt, lab, len⟩
      · simp only [find_all_links_aux, hm]
        simp only [List.length_cons] at h ⊢
        refine spansChained_mono (by omega) (by omega) (ih rest (pos + 1) (by omega))
      · simp only [find_all_links_aux, hm]
        have hlen := tryMatch_length hm
        simp only [List.length_cons] at hlen h
        refine ⟨le_rfl, by simp; omega, by simp; omega, ?_⟩
        refine spansChained_mono le_rfl ?_
          (ih (List.drop (len - 1) rest) (pos + len) (by simp [List.length_drop]; omega))
        simp only [List.length_drop, List.length_cons]
        omega

theorem findSubstr_le {pat cs : Str} {i : Nat} (h : findSubstr pat cs = some i) :
    i ≤ cs.length := by
  induction cs generalizing i with
  | nil =>
    unfold findSubstr at h
    split at h
    · simp at h; omega
    · exact absurd h (by simp)
  | cons c rest ih =>
    unfold findSubstr at h
    split at h
    · simp at h; omega
    · rcases hm : findSubstr pat rest with _ | j
      · rw [hm] at h; exact Option.noConfusion h
      · rw [hm] at h
        simp only [Option.map_some', Option.some.injEq] at h
        have := ih hm
        simp only [List.length_cons]
        omega

theorem findSubstr_found {pat cs : Str} {i : Nat} (h : findSubstr pat cs = some i) :
    pat.isPrefixOf (cs.drop i) = true := by
  induction cs generalizing i with
  | nil =>
    unfold findSubstr at h
    split at h
    · rename_i he
      simp only [Option.some.injEq] at h
      subst h
      simp only [List.isEmpty_iff] at he
      subst he
      rfl
    · exact absurd h (by simp)
  | cons c rest ih =>
    unfold findSubstr at h
    split at h
    · rename_i hp
      simp only [Option.some.injEq] at h
      subst h
      exact hp
    · rcases hm : findSubstr pat rest with _ | j
      · rw [hm] at h; exact Option.noConfusion h
      · rw [hm] at h
        simp only [Option.map_some', Option.some.injEq] at h
        subst h
        rw [List.drop_succ_cons]
        exact ih hm

theorem findSubstr_min {pat cs : Str} {i : Nat} (h : findSubstr pat cs = some i) :
    ∀ j, j < i → pat.isPrefixOf (cs.drop j) = false := by
  induction cs generalizing i with
  | nil =>
    unfold findSubstr at h
    split at h
    · simp only [Option.some.injEq] at h; omega
    · exact absurd h (by simp)
  | cons c rest ih =>
    unfold findSubstr at h
    split at h
    · simp only [Option.some.injEq] at h; omega
    · rename_i hp
      rcases hm : findSubstr pat rest with _ | j0
      · rw [hm] at h; exact Option.noConfusion h
      · rw [hm] at h
        simp only [Option.map_some', Option.some.injEq] at h
        subst h
        intro j hj
        cases j with
        | zero =>
          simp only [List.drop_zero]
          exact eq_false_of_ne_true hp
        | succ k =>
          rw [List.drop_succ_cons]
          exact ih hm k (by omega)

theorem findSubstr_none {pat cs : Str} (hp : pat ≠ []) (h : findSubstr pat cs = none) :
    ∀ j, pat.isPrefixOf (cs.drop j) = false := by
  induction cs with
  | nil =>
    intro j
    rw [List.drop_nil]
    rcases pat with _ | ⟨p, ps⟩
    · exact absurd rfl hp
    · rfl
  | cons c rest ih =>
    unfold findSubstr at h
    split at h
    · exact absurd h (by simp)
    · rename_i hnp
      have hm : findSubstr pat rest = none := by
        rcases hm2 : findSubstr pat rest with _ | j
        · rfl
        · rw [hm2] at h; simp at h
      intro j
      cases j with
      | zero =>
        simp only [List.drop_zero]
        exact eq_false_of_ne_true hnp
      | succ k =>
        rw [List.drop_succ_cons]
        exact ih hm k

/-- C10: both verifiers cut the file at the first occurrence of the literal
header anywhere in the text: the content region is exactly the prefix before
that occurrence (no earlier occurrence exists, and the backlinks region, when
non-empty, starts with the literal), the backlink verifier parses forward
links from the very same prefix, and every parsed link lies inside it, so all
text from the first occurrence on is ignored by forward-link parsing. -/
theorem backlinks_split_first_occurrence (content : Str) :
    content = (get_content_section content).1 ++ (get_content_section content).2 ∧
    (∀ j, j < (get_content_section content).1.length →
      backlinksHeader.isPrefixOf (content.drop j) = false) ∧
    ((get_content_section content).2 ≠ [] →
      backlinksHeader.isPrefixOf (get_content_section content).2 = true) ∧
    extract_links content
      = (find_all_links (get_content_section content).1).map (fun li => li.target) ∧
    (∀ li ∈ find_all_links (get_content_section content).1,
      li.stop ≤ (get_content_section content).1.length) := by
  unfold get_content_section extract_links
  rcases hf : findSubstr backlinksHeader content with _ | i <;> simp only [hf]
  · refine ⟨by simp, ?_, ?_, trivial, ?_⟩
    · intro j hj
      exact findSubstr_none (by decide) hf j
    · intro hne; exact absurd rfl hne
    · intro li hm
      have h := spansChained_stop_le (find_all_links_aux_chained content.length content 0 le_rfl) li hm
      simpa using h.2
  · have hle := findSubstr_le hf
    refine ⟨(List.take_append_drop i content).symm, ?_, ?_, trivial, ?_⟩
    · intro j hj
      have hlen : (content.take i).length = i := by
        rw [List.length_take]; omega
      exact findSubstr_min hf j (by omega)
    · intro hne
      exact findSubstr_found hf
    · intro li hm
      have h := spansChained_stop_le
        (find_all_links_aux_chained (content.take i).length (content.take i) 0 le_rfl) li hm
      simpa using h.2

theorem chainedFixes_mono {l : List LinkFix} :
    ∀ {lo lo2 hi hi2 : Nat}, lo2 ≤ lo → hi ≤ hi2 →
      chainedFixes lo hi l → chainedFixes lo2 hi2 l := by
  induction l with
  | nil => intro lo lo2 hi hi2 h1 h2 h3; trivial
  | cons f rest ih =>
    intro lo lo2 hi hi2 h1 h2 h3
    obtain ⟨a, b, c, d⟩ := h3
    exact ⟨le_trans h1 a, b, le_trans c h2, ih le_rfl h2 d⟩

theorem chainedFixes_all_ge {l : List LinkFix} :
    ∀ {lo hi : Nat}, chainedFixes lo hi l →
      ∀ f ∈ l, lo ≤ f.start ∧ f.start < f.stop ∧ f.stop ≤ hi := by
  induction l with
  | nil => intro lo hi h f hm; simp at hm
  | cons x rest ih =>
    intro lo hi h f hm
    obtain ⟨a, b, c, d⟩ := h
    rcases List.mem_cons.mp hm with h1 | h1
    · subst h1; exact ⟨a, b, c⟩
    · have := ih d f h1
      exact ⟨by omega, this.2.1, this.2.2⟩

theorem chainedFixes_of_spans {g : LinkInfo → Option LinkFix}
    (hg : ∀ li f, g li = some f → f.start = li.start ∧ f.stop = li.stop) :
    ∀ {l : List LinkInfo} {lo hi : Nat},
      spansChained lo hi l → chainedFixes lo hi (l.filterMap g) := by
  intro l
  induction l with
  | nil => intro lo hi h; simp [chainedFixes]
  | cons li rest ih =>
    intro lo hi h
    obtain ⟨h1, h2, h3, h4⟩ := h
    rw [List.filterMap_cons]
    rcases hgl : g li with _ | f
    · exact chainedFixes_mono (by omega) le_rfl (ih h4)
    · have he := hg li f hgl
      exact ⟨by omega, by omega, by omega, by rw [he.2]; exact ih h4⟩

theorem sortDescFixes_aux {l : List LinkFix} :
    ∀ {acc : List LinkFix} {lo hi : Nat}, chainedFixes lo hi l →
      (∀ a ∈ acc, a.start < lo) →
      l.foldl (fun acc2 x => insertDescFix x acc2) acc = l.reverse ++ acc := by
  induction l with
  | nil => intro acc lo hi hc hacc; simp
  | cons x rest ih =>
    intro acc lo hi hc hacc
    obtain ⟨h1, h2, h3, h4⟩ := hc
    have hins : insertDescFix x acc = x :: acc := by
      cases acc with
      | nil => rfl
      | cons hh tt =>
        unfold insertDescFix
        rw [if_pos]
        have := hacc hh (List.mem_cons_self hh tt)
        omega
    rw [List.foldl_cons, hins, ih h4 ?_, List.reverse_cons, List.append_assoc]
    · rfl
    · intro a ha
      rcases List.mem_cons.mp ha with h5 | h5
      · subst h5; omega
      · have := hacc a h5; omega

theorem sortDescFixes_eq_reverse {l : List LinkFix} {lo hi : Nat}
    (hc : chainedFixes lo hi l) : sortDescFixes l = l.reverse := by
  unfold sortDescFixes
  rw [sortDescFixes_aux hc (by intro a ha; simp at ha)]
  simp

theorem revfold_eq_applyAscFrom {l : List LinkFix} :
    ∀ {content : Str} {pos : Nat}, chainedFixes pos content.length l → pos ≤ content.length →
      l.reverse.foldl spliceFix content = content.take pos ++ applyAscFrom content pos l := by
  induction l with
  | nil =>
    intro content pos hc hp
    simp [applyAscFrom, List.take_append_drop]
  | cons f rest ih =>
    intro content pos hc hp
    obtain ⟨h1, h2, h3, h4⟩ := hc
    rw [List.reverse_cons, List.foldl_append, List.foldl_cons, List.foldl_nil]
    rw [ih h4 (by omega)]
    have hlen : (content.take f.stop).length = f.stop := by
      rw [List.length_take]; omega
    unfold spliceFix
    have htake : (content.take f.stop ++ applyAscFrom content f.stop rest).take f.start
        = content.take f.start := by
      rw [List.take_append_eq_append_take, hlen]
      have : f.start - f.stop = 0 := by omega
      rw [this, List.take_take, List.take_zero, List.append_nil]
      congr 1
      omega
    have hdrop : (content.take f.stop ++ applyAscFrom content f.stop rest).drop f.stop
        = applyAscFrom content f.stop rest := List.drop_left' hlen
    rw [htake, hdrop]
    have hstep : content.take pos ++ (content.take f.start).drop pos = content.take f.start := by
      have hpp : (content.take f.start).take pos = content.take pos := by
        rw [List.take_take]
        congr 1
        omega
      calc content.take pos ++ (content.take f.start).drop pos
        = (content.take f.start).take pos ++ (content.take f.start).drop pos := by rw [hpp]
        _ = content.take f.start := List.take_append_drop _ _
    calc content.take f.start ++ f.repl ++ applyAscFrom content f.stop rest
        = (content.take pos ++ (content.take f.start).drop pos) ++ f.repl ++
            applyAscFrom content f.stop rest := by rw [hstep]
      _ = content.take pos ++ ((content.take f.start).drop pos ++ f.repl ++
            applyAscFrom content f.stop rest) := by simp [List.append_assoc]
      _ = content.take pos ++ applyAscFrom content pos (f :: rest) := rfl

theorem fixesOf_computeIssues (corpus : List Doc) (source : Doc) (cs : Str) :
    fixesOf (computeIssues corpus source cs)
      = (find_all_links cs).filterMap
          (fun li => (issueOfLink corpus source li).bind (fun i =>
            match i with
            | Issue.wrong_format li2 _ c => some (LinkFix.mk li2.start li2.stop c)
            | _ => none)) := by
  unfold fixesOf computeIssues
  rw [List.filterMap_filterMap]

theorem issue_fix_span (corpus : List Doc) (source : Doc) :
    ∀ (li : LinkInfo) (f : LinkFix),
      (issueOfLink corpus source li).bind (fun i =>
        match i with
        | Issue.wrong_format li2 _ c => some (LinkFix.mk li2.start li2.stop c)
        | _ => none) = some f →
      f.start = li.start ∧ f.stop = li.stop := by
  intro li f h
  unfold issueOfLink at h
  split at h
  · simp at h
  · simp at h
  · rename_i t heq
    by_cases hr : renderWikiLink li.target li.label = get_correct_link_format source t li.label
    · simp [hr] at h
    · simp [hr] at h
      subst h
      exact ⟨rfl, rfl⟩

/-- C7: in fix mode, the reconciler applies exactly the wrong-format fixes,
in reverse span order in one pass, and the result is the simultaneous
replacement of all fixable spans (untouched text between spans is preserved);
the file is written back only when at least one fix was applied, with the
original Backlinks section appended unchanged; read-only mode never writes. -/
theorem forward_fix_pass_spec (corpus : List Doc) (source : Doc) (content : Str) :
    ((check_and_fix_file corpus source content true).2.2 = none ↔
      fixesOf (computeIssues corpus source (get_content_section content).1) = []) ∧
    (check_and_fix_file corpus source content true).2.1
      = (fixesOf (computeIssues corpus source (get_content_section content).1)).length ∧
    (∀ out, (check_and_fix_file corpus source content true).2.2 = some out →
      out = applyAscFrom (get_content_section content).1 0
              (fixesOf (computeIssues corpus source (get_content_section content).1))
            ++ (get_content_section content).2) ∧
    (check_and_fix_file corpus source content false).2.2 = none := by
  have hchain : spansChained 0 (get_content_section content).1.length
      (find_all_links (get_content_section content).1) := by
    have := find_all_links_aux_chained (get_content_section content).1.length
      (get_content_section content).1 0 le_rfl
    simpa [find_all_links] using this
  have hcf : chainedFixes 0 (get_content_section content).1.length
      (fixesOf (computeIssues corpus source (get_content_section content).1)) := by
    rw [fixesOf_computeIssues]
    exact chainedFixes_of_spans (issue_fix_span corpus source) hchain
  have hsort := sortDescFixes_eq_reverse hcf
  have happ : (fixesOf (computeIssues corpus source (get_content_section content).1)).reverse.foldl
        spliceFix (get_content_section content).1
      = applyAscFrom (get_content_section content).1 0
          (fixesOf (computeIssues corpus source (get_content_section content).1)) := by
    have h2 := revfold_eq_applyAscFrom hcf (by omega)
    simpa using h2
  by_cases hempty : computeIssues corpus source (get_content_section content).1 = []
  · simp only [check_and_fix_file, hempty, List.isEmpty_nil, if_true]
    simp [fixesOf]
  · have hne : (computeIssues corpus source (get_content_section content).1).isEmpty = false := by
      simpa [List.isEmpty_iff] using hempty
    by_cases hfix : fixesOf (computeIssues corpus source (get_content_section content).1) = []
    · simp only [check_and_fix_file, hne, Bool.false_eq_true, if_false, if_true, hfix,
        List.length_nil, gt_iff_lt, lt_irrefl]
      simp
    · have hpos : 0 < (fixesOf (computeIssues corpus source (get_content_section content).1)).length := by
        rcases hl : fixesOf (computeIssues corpus source (get_content_section content).1) with _ | ⟨a, b⟩
        · exact absurd hl hfix
        · simp
      simp only [check_and_fix_file, hne, Bool.false_eq_true, if_false, gt_iff_lt, hpos, if_true]
      refine ⟨by simp [hfix], by trivial, ?_, by simp⟩
      intro out hout
      simp only [Option.some.injEq] at hout
      rw [← hout, hsort, happ]

theorem check_counts_mode_free (corpus : List Doc) (source : Doc) (content : Str) (m : Bool) :
    (check_and_fix_file corpus source content m).1
      = (check_and_fix_file corpus source content false).1 := by
  cases m
  · rfl
  · simp only [check_and_fix_file]
    split
    · rfl
    · split
      · split <;> simp
      · simp

theorem forward_total_issues_mode_free (files : List (Doc × Str)) (m : Bool) :
    forward_total_issues files m = forward_total_issues files false := by
  unfold forward_total_issues
  congr 1
  apply List.map_congr_left
  intro f hf
  exact check_counts_mode_free _ _ _ m

/-- C5 amended: each verifier's exit code reflects whether any issue was
found at all — 0 exactly when none was found — and is independent of the fix
pass, so a fix-mode run that repaired every found issue still exits 1. -/
theorem exit_reflects_found_issues (files : List (Doc × Str)) (m : Bool) :
    forward_main_exit files m = forward_main_exit files false ∧
    (forward_main_exit files m = 0 ↔ forward_total_issues files false = 0) ∧
    (backlink_main_exit files = 0 ↔
      files.filter (fun f => backlinkFileHasIssue files f.1 f.2) = []) := by
  have h := forward_total_issues_mode_free files m
  refine ⟨?_, ?_, ?_⟩
  · unfold forward_main_exit
    rw [h]
  · unfold forward_main_exit
    rw [h]
    split <;> simp_all
  · unfold backlink_main_exit
    split <;> simp_all [List.isEmpty_iff]

/-- C5 counterexample: a corpus whose only issue is fixable; the fix-mode run
repairs it (fixed count equals issue count, both nonzero) and still exits 1,
not 0 as the claim states. -/
theorem fixmode_all_fixed_exit_cx :
    forward_main_exit
        [(Doc.mk [] ['a'], "[[d:b]]".data), (Doc.mk [['d']] ['b'], "hello".data)] true = 1 ∧
    forward_total_fixed
        [(Doc.mk [] ['a'], "[[d:b]]".data), (Doc.mk [['d']] ['b'], "hello".data)] true
      = forward_total_issues
        [(Doc.mk [] ['a'], "[[d:b]]".data), (Doc.mk [['d']] ['b'], "hello".data)] true ∧
    forward_total_issues
        [(Doc.mk [] ['a'], "[[d:b]]".data), (Doc.mk [['d']] ['b'], "hello".data)] true ≠ 0 := by
  decide

theorem splitOnColon_ne_nil (cs : Str) : splitOnColon cs ≠ [] := by
  induction cs with
  | nil => simp [splitOnColon]
  | cons c rest ih =>
    by_cases h : c == ':'
    · simp [splitOnColon, h]
    · simp only [splitOnColon, Bool.not_eq_true] at h ⊢
      rw [h]
      simp only [Bool.false_eq_true, if_false]
      rcases hs : splitOnColon rest with _ | ⟨a, b⟩ <;> simp

theorem splitOnColon_colonFree (cs : Str) : ∀ p ∈ splitOnColon cs, hasColon p = false := by
  induction cs with
  | nil =>
    intro p hp
    simp [splitOnColon] at hp
    subst hp
    rfl
  | cons c rest ih =>
    intro p hp
    by_cases h : c = ':'
    · subst h
      simp [splitOnColon] at hp
      rcases hp with hp | hp
      · subst hp; rfl
      · exact ih p hp
    · have hb : (c == ':') = false := by simpa using h
      simp only [splitOnColon, hb, Bool.false_eq_true, if_false] at hp
      rcases hs : splitOnColon rest with _ | ⟨a, b⟩
      · rw [hs] at hp
        simp at hp
        subst hp
        simp [hasColon, hb]
      · rw [hs] at hp
        rcases List.mem_cons.mp hp with hp2 | hp2
        · subst hp2
          have ha : hasColon a = false := ih a (by rw [hs]; exact List.mem_cons_self a b)
          simp [hasColon, hb, ha]
        · exact ih p (by rw [hs]; exact List.mem_cons_of_mem a hp2)

theorem getLastD_mem (l : List Str) (h : l ≠ []) : ∀ d, l.getLastD d ∈ l := by
  induction l with
  | nil => exact absurd rfl h
  | cons a t ih =>
    intro d
    rw [List.getLastD_cons]
    rcases t with _ | ⟨b, t2⟩
    · simp
    · exact List.mem_cons_of_mem a (ih (by simp) a)

theorem getLastD_irrel (l : List Str) (a b : Str) (h : l ≠ []) :
    l.getLastD a = l.getLastD b := by
  cases l with
  | nil => exact absurd rfl h
  | cons x t => rw [List.getLastD_cons, List.getLastD_cons]

theorem hasColon_append (a b : Str) : hasColon (a ++ b) = (hasColon a || hasColon b) := by
  induction a with
  | nil => simp [hasColon]
  | cons c rest ih => simp [hasColon, ih, Bool.or_assoc]

theorem splitOnColon_of_colonFree (cs : Str) (h : hasColon cs = false) :
    splitOnColon cs = [cs] := by
  induction cs with
  | nil => rfl
  | cons c rest ih =>
    simp only [hasColon, Bool.or_eq_false_iff] at h
    rw [splitOnColon, h.1]
    simp only [Bool.false_eq_true, if_false, ih h.2]

theorem joinColon_append_singleton (ds : List Str) (x : Str) (h : ds ≠ []) :
    joinColon (ds ++ [x]) = joinColon ds ++ ':' :: x := by
  induction ds with
  | nil => exact absurd rfl h
  | cons d ds2 ih =>
    rcases ds2 with _ | ⟨d2, rest⟩
    · rfl
    · show joinColon (d :: d2 :: (rest ++ [x])) = joinColon (d :: d2 :: rest) ++ ':' :: x
      rw [joinColon]
      have ih2 := ih (by simp)
      rw [List.cons_append] at ih2
      rw [ih2]
      simp [joinColon, List.append_assoc]

theorem splitOnColon_append_colon_len (xs ys : Str) :
    2 ≤ (splitOnColon (xs ++ ':' :: ys)).length := by
  induction xs with
  | nil =>
    show 2 ≤ (splitOnColon (':' :: ys)).length
    rw [splitOnColon]
    simp only [beq_self_eq_true, if_true, List.length_cons]
    have := splitOnColon_ne_nil ys
    rcases hs : splitOnColon ys with _ | ⟨a, b⟩
    · exact absurd hs this
    · simp
  | cons c xs2 ih =>
    show 2 ≤ (splitOnColon (c :: (xs2 ++ ':' :: ys))).length
    rw [splitOnColon]
    by_cases h : c == ':'
    · rw [if_pos h]
      simp only [List.length_cons]
      have := splitOnColon_ne_nil (xs2 ++ ':' :: ys)
      rcases hs : splitOnColon (xs2 ++ ':' :: ys) with _ | ⟨a, b⟩
      · exact absurd hs this
      · simp
    · rw [if_neg h]
      rcases hs : splitOnColon (xs2 ++ ':' :: ys) with _ | ⟨a, b⟩
      · exact absurd hs (splitOnColon_ne_nil _)
      · rw [hs] at ih
        simp only [List.length_cons] at ih ⊢
        omega

theorem lastSeg_append_colon (xs stem : Str) (h : hasColon stem = false) :
    (splitOnColon (xs ++ ':' :: stem)).getLastD [] = stem := by
  induction xs with
  | nil =>
    show (splitOnColon (':' :: stem)).getLastD [] = stem
    rw [splitOnColon]
    simp only [beq_self_eq_true, if_true]
    rw [List.getLastD_cons, splitOnColon_of_colonFree stem h]
    rfl
  | cons c xs2 ih =>
    show (splitOnColon (c :: (xs2 ++ ':' :: stem))).getLastD [] = stem
    rw [splitOnColon]
    by_cases hc : c == ':'
    · rw [if_pos hc, List.getLastD_cons]
      exact ih
    · rw [if_neg hc]
      rcases hs : splitOnColon (xs2 ++ ':' :: stem) with _ | ⟨a, b⟩
      · exact absurd hs (splitOnColon_ne_nil _)
      · show ((c :: a) :: b).getLastD [] = stem
        have hlen := splitOnColon_append_colon_len xs2 stem
        rw [hs] at hlen
        simp only [List.length_cons] at hlen
        have hb : b ≠ [] := by
          rcases b with _ | ⟨x, y⟩
          · simp at hlen
          · simp
        rw [List.getLastD_cons]
        rw [getLastD_irrel b (c :: a) a hb]
        have h2 : (splitOnColon (xs2 ++ ':' :: stem)).getLastD [] = b.getLastD a := by
          rw [hs, List.getLastD_cons]
        rw [← h2]
        exact ih

theorem mem_nameToFiles {corpus : List Doc} {n : Str} {p : Doc} :
    p ∈ nameToFiles corpus n ↔ p ∈ corpus ∧ p.stem = n := by
  unfold nameToFiles
  rw [List.mem_filter]
  simp

theorem resolve_resolved_cases {corpus : List Doc} {lp : Str} {source t : Doc}
    (h : resolve_link_target corpus lp source = Resolution.Resolved t) :
    directLookup corpus lp source = some t ∨
    (directLookup corpus lp source = none ∧ nameToFiles corpus (fallbackName lp) = [t]) := by
  unfold resolve_link_target at h
  rcases hd : directLookup corpus lp source with _ | t2
  · rw [hd] at h
    rcases hn : nameToFiles corpus (fallbackName lp) with _ | ⟨a, _ | ⟨b, rest⟩⟩ <;> rw [hn] at h
    · exact absurd h (by simp)
    · simp only [Resolution.Resolved.injEq] at h
      subst h
      exact Or.inr ⟨rfl, rfl⟩
    · exact absurd h (by simp)
  · rw [hd] at h
    simp only [Resolution.Resolved.injEq] at h
    subst h
    exact Or.inl rfl

theorem directLookup_some {corpus : List Doc} {lp : Str} {source t : Doc}
    (h : directLookup corpus lp source = some t) :
    t ∈ corpus ∧
    ((hasColon lp = true ∧ t = pathOfParts (splitOnColon lp)) ∨
     (hasColon lp = false ∧ t = Doc.mk source.dirs lp)) := by
  unfold directLookup at h
  split at h
  · rename_i hc
    by_cases hmem : pathOfParts (splitOnColon lp) ∈ corpus
    · simp only [hmem, if_true, Option.some.injEq] at h
      subst h
      exact ⟨hmem, Or.inl ⟨hc, rfl⟩⟩
    · simp [hmem] at h
  · rename_i hc
    by_cases hmem : Doc.mk source.dirs lp ∈ corpus
    · simp only [hmem, if_true, Option.some.injEq] at h
      subst h
      exact ⟨hmem, Or.inr ⟨eq_false_of_ne_true hc, rfl⟩⟩
    · simp [hmem] at h

theorem resolved_stem_colonFree {corpus : List Doc} {lp : Str} {source t : Doc}
    (h : resolve_link_target corpus lp source = Resolution.Resolved t) :
    hasColon t.stem = false := by
  rcases resolve_resolved_cases h with hd | ⟨hd, hn⟩
  · rcases (directLookup_some hd).2 with ⟨hc, ht⟩ | ⟨hc, ht⟩
    · subst ht
      exact splitOnColon_colonFree lp _
        (getLastD_mem _ (splitOnColon_ne_nil lp) [])
    · subst ht
      exact hc
  · have hmem : t ∈ nameToFiles corpus (fallbackName lp) := by
      rw [hn]; exact List.mem_cons_self t []
    have hstem : t.stem = fallbackName lp := (mem_nameToFiles.mp hmem).2
    rw [hstem]
    unfold fallbackName
    split
    · exact splitOnColon_colonFree lp _
        (getLastD_mem _ (splitOnColon_ne_nil lp) [])
    · rename_i hc
      exact eq_false_of_ne_true hc

/-- C8: for a target some link resolves to whose stem is unambiguous in the
Name Index (the claim's "unambiguous resolved targets"), re-resolving the
canonical formatter's output from the same source yields the identical
target; the formatter's output is the rendering of exactly that target path
with some label. -/
theorem format_resolve_roundtrip (corpus : List Doc) (source target : Doc) (lp : Str)
    (display : Option Str)
    (h1 : resolve_link_target corpus lp source = Resolution.Resolved target)
    (h2 : nameToFiles corpus target.stem = [target]) :
    resolve_link_target corpus (formattedTarget source target) source
        = Resolution.Resolved target ∧
    ∃ lab, get_correct_link_format source target display
        = renderWikiLink (formattedTarget source target) lab := by
  have hmem : target ∈ corpus := by
    have hm : target ∈ nameToFiles corpus target.stem := by
      rw [h2]; exact List.mem_cons_self target []
    exact (mem_nameToFiles.mp hm).1
  have hcf : hasColon target.stem = false := resolved_stem_colonFree h1
  constructor
  · unfold formattedTarget
    by_cases hdir : source.dirs = target.dirs
    · rw [if_pos hdir]
      have heq : Doc.mk source.dirs target.stem = target := by rw [hdir]
      unfold resolve_link_target directLookup
      simp [hcf, heq, hmem]
    · rw [if_neg hdir]
      by_cases hroot : target.dirs = []
      · have hq : joinColon (target.dirs ++ [target.stem]) = target.stem := by
          rw [hroot]; rfl
        rw [hq]
        unfold resolve_link_target directLookup fallbackName
        by_cases hp : Doc.mk source.dirs target.stem ∈ corpus
        · have hple : Doc.mk source.dirs target.stem ∈ nameToFiles corpus target.stem :=
            mem_nameToFiles.mpr ⟨hp, rfl⟩
          rw [h2] at hple
          simp only [List.mem_singleton] at hple
          simp [hcf, hp, hple, hmem]
        · simp [hcf, hp, h2]
      · have hj : joinColon (target.dirs ++ [target.stem])
            = joinColon target.dirs ++ ':' :: target.stem :=
          joinColon_append_singleton target.dirs target.stem hroot
        rw [hj]
        have hcq : hasColon (joinColon target.dirs ++ ':' :: target.stem) = true := by
          rw [hasColon_append]; simp [hasColon]
        have hlast : (splitOnColon (joinColon target.dirs ++ ':' :: target.stem)).getLastD []
            = target.stem := lastSeg_append_colon (joinColon target.dirs) target.stem hcf
        unfold resolve_link_target directLookup fallbackName
        by_cases hp :
            pathOfParts (splitOnColon (joinColon target.dirs ++ ':' :: target.stem)) ∈ corpus
        · have hstem :
              (pathOfParts (splitOnColon (joinColon target.dirs ++ ':' :: target.stem))).stem
              = target.stem := hlast
          have hple := mem_nameToFiles.mpr ⟨hp, hstem⟩
          rw [h2] at hple
          simp only [List.mem_singleton] at hple
          simp [hcq, hp, hple, hmem]
        · rw [List.getLastD_eq_getLast?] at hlast
          simp [hcq, hp, hlast, h2]
  · unfold get_correct_link_format formattedTarget
    rcases display with _ | d
    · by_cases hdir : source.dirs = target.dirs <;> simp [hdir]
    · by_cases hdir : source.dirs = target.dirs <;> by_cases hd0 : d = [] <;>
        by_cases hds : d = target.stem <;> simp [hdir, hd0, hds]

/-- C8 witness: a root-level source, a subdirectory target found through the
unique-name fallback. -/
theorem format_resolve_roundtrip_witness :
    resolve_link_target [Doc.mk [['d']] ['x'], Doc.mk [] ['s']]
        (formattedTarget (Doc.mk [] ['s']) (Doc.mk [['d']] ['x'])) (Doc.mk [] ['s'])
      = Resolution.Resolved (Doc.mk [['d']] ['x']) ∧
    ∃ lab, get_correct_link_format (Doc.mk [] ['s']) (Doc.mk [['d']] ['x']) none
      = renderWikiLink (formattedTarget (Doc.mk [] ['s']) (Doc.mk [['d']] ['x'])) lab :=
  format_resolve_roundtrip [Doc.mk [['d']] ['x'], Doc.mk [] ['s']]
    (Doc.mk [] ['s']) (Doc.mk [['d']] ['x']) ['x'] none (by decide) (by decide)

theorem strLt_asymm : ∀ (a b : Str), strLt a b = true → strLt b a = false := by
  intro a
  induction a with
  | nil =>
    intro b hab
    cases b with
    | nil => simp [strLt] at hab
    | cons y bs => simp [strLt]
  | cons x as ih =>
    intro b hab
    cases b with
    | nil => simp [strLt] at hab
    | cons y bs =>
      simp only [strLt] at hab ⊢
      by_cases h1 : x.toNat < y.toNat <;> by_cases h2 : y.toNat < x.toNat <;>
        simp [h1, h2] at hab ⊢ <;>
        first | omega | (exact ih bs hab)

theorem strLt_trans : ∀ (a b c : Str), strLt a b = true → strLt b c = true → strLt a c = true := by
  intro a
  induction a with
  | nil =>
    intro b c hab hbc
    cases b with
    | nil => simp [strLt] at hab
    | cons y bs =>
      cases c with
      | nil => simp [strLt] at hbc
      | cons z cs => simp [strLt]
  | cons x as ih =>
    intro b c hab hbc
    cases b with
    | nil => simp [strLt] at hab
    | cons y bs =>
      cases c with
      | nil => simp [strLt] at hbc
      | cons z cs =>
        simp only [strLt] at hab hbc ⊢
        by_cases h1 : x.toNat < y.toNat <;> by_cases h2 : y.toNat < x.toNat <;>
          by_cases h3 : y.toNat < z.toNat <;> by_cases h4 : z.toNat < y.toNat <;>
          by_cases h5 : x.toNat < z.toNat <;> by_cases h6 : z.toNat < x.toNat <;>
          simp [h1, h2, h3, h4, h5, h6] at hab hbc ⊢ <;>
          first | omega | (exact ih bs cs hab hbc)

theorem mem_insertByStem {l : List Doc} {x y : Doc} (h : y ∈ insertByStem l x) :
    y = x ∨ y ∈ l := by
  induction l with
  | nil =>
    simp [insertByStem] at h
    exact Or.inl h
  | cons hh t ih =>
    unfold insertByStem at h
    split at h
    · rcases List.mem_cons.mp h with h2 | h2
      · exact Or.inl h2
      · exact Or.inr h2
    · rcases List.mem_cons.mp h with h2 | h2
      · exact Or.inr (by rw [h2]; exact List.mem_cons_self hh t)
      · rcases ih h2 with h3 | h3
        · exact Or.inl h3
        · exact Or.inr (List.mem_cons_of_mem hh h3)

theorem insertByStem_pairwise {l : List Doc} (x : Doc) (h : stemAscending l) :
    stemAscending (insertByStem l x) := by
  induction l with
  | nil => simp [insertByStem, stemAscending]
  | cons hh t ih =>
    unfold stemAscending at h ⊢
    rw [List.pairwise_cons] at h
    unfold insertByStem
    split
    · rename_i hlt
      rw [List.pairwise_cons]
      constructor
      · intro y hy
        rcases List.mem_cons.mp hy with h2 | h2
        · rw [h2]
          exact strLt_asymm _ _ hlt
        · by_contra hcon
          have hy2 : strLt y.stem x.stem = true := by
            rcases hb : strLt y.stem x.stem with _ | _
            · exact absurd hb hcon
            · rfl
          have := strLt_trans y.stem x.stem hh.stem hy2 hlt
          rw [h.1 y h2] at this
          exact Bool.noConfusion this
      · rw [List.pairwise_cons]
        exact h
    · rename_i hge
      rw [List.pairwise_cons]
      constructor
      · intro y hy
        rcases mem_insertByStem hy with h2 | h2
        · rw [h2]
          simpa using hge
        · exact h.1 y h2
      · exact ih h.2

theorem insertByStem_perm (l : List Doc) (x : Doc) : (insertByStem l x).Perm (x :: l) := by
  induction l with
  | nil => exact List.Perm.refl _
  | cons hh t ih =>
    unfold insertByStem
    split
    · exact List.Perm.refl _
    · exact (List.Perm.cons hh ih).trans (List.Perm.swap x hh t)

theorem sortByStem_foldl_perm : ∀ (l acc : List Doc),
    (l.foldl insertByStem acc).Perm (acc ++ l) := by
  intro l
  induction l with
  | nil => intro acc; simp
  | cons x rest ih =>
    intro acc
    rw [List.foldl_cons]
    refine (ih (insertByStem acc x)).trans ?_
    refine (List.Perm.append_right rest (insertByStem_perm acc x)).trans ?_
    exact List.perm_middle.symm

theorem sortByStem_perm (l : List Doc) : (sortByStem l).Perm l := by
  have := sortByStem_foldl_perm l []
  simpa [sortByStem] using this

theorem sortByStem_foldl_sorted : ∀ (l acc : List Doc), stemAscending acc →
    stemAscending (l.foldl insertByStem acc) := by
  intro l
  induction l with
  | nil => intro acc h; exact h
  | cons x rest ih =>
    intro acc h
    rw [List.foldl_cons]
    exact ih _ (insertByStem_pairwise x h)

theorem sortByStem_sorted (l : List Doc) : stemAscending (sortByStem l) :=
  sortByStem_foldl_sorted l [] (by simp [stemAscending])

/-- C6: a file without a Backlinks block is never rewritten and never
reported; with a block at first occurrence `i`, fix mode writes back the
unchanged first `i` characters, the header, and a body that is either the
sentinel (empty expected set) or the canonical links to a stem-ascending
permutation of the expected inbound set. -/
theorem backlink_fix_block_spec (content : Str) (tf : Doc) (expected : List Doc) :
    (findSubstr backlinksHeaderNL content = none →
      fix_backlinks_in_file content tf expected = none ∧
      ∀ files, backlinkFileHasIssue files tf content = false) ∧
    ∀ i, findSubstr backlinksHeaderNL content = some i →
      ∃ l, l.Perm expected ∧ stemAscending l ∧
        fix_backlinks_in_file content tf expected
          = some (content.take i ++ backlinksHeaderNL ++
              (if expected = [] then noBacklinksBody
               else joinNL (l.map (fun s => get_link_format tf s)) ++ ['\n'])) ∧
        ∀ out, fix_backlinks_in_file content tf expected = some out →
          out.take i = content.take i := by
  constructor
  · intro hn
    constructor
    · unfold fix_backlinks_in_file
      rw [hn]
    · intro files
      unfold backlinkFileHasIssue blockBody
      rw [hn]
  · intro i hi
    have hle := findSubstr_le hi
    have hlen : (content.take i).length = i := by rw [List.length_take]; omega
    refine ⟨sortByStem expected, sortByStem_perm expected, sortByStem_sorted expected, ?_, ?_⟩
    · unfold fix_backlinks_in_file
      rw [hi]
      simp only [Option.some.injEq]
      congr 1
      by_cases he : expected = []
      · simp [he]
      · have : expected.isEmpty = false := by simpa [List.isEmpty_iff] using he
        simp [this, he]
    · intro out hout
      unfold fix_backlinks_in_file at hout
      rw [hi] at hout
      simp only [Option.some.injEq] at hout
      rw [← hout, List.append_assoc, List.take_left' hlen]

theorem issueOfLink_wrong_format {corpus : List Doc} {source : Doc} {li li2 : LinkInfo}
    {t : Doc} {c : Str}
    (h : issueOfLink corpus source li2 = some (Issue.wrong_format li t c)) :
    li2 = li ∧ resolve_link_target corpus li2.target source = Resolution.Resolved t := by
  unfold issueOfLink at h
  split at h
  · simp at h
  · simp at h
  · rename_i t2 heq
    by_cases hr : renderWikiLink li2.target li2.label
        = get_correct_link_format source t2 li2.label
    · simp [hr] at h
    · simp only [hr, if_false] at h
      simp only [Option.some.injEq, Issue.wrong_format.injEq] at h
      obtain ⟨hli, ht, -⟩ := h
      subst hli
      subst ht
      exact ⟨rfl, heq⟩

/-- C4 amended: the forward-link verifier records every ambiguous link with
its full candidate list, never classifies it as fixable, and a file with no
wrong-format issue is never rewritten by its fix pass; but the whole-corpus
link-path normalizer (fix_all_links.py) can rewrite an ambiguous bare link
(see the counterexample). -/
theorem ambiguous_never_fixed_by_verifier (corpus : List Doc) (source : Doc) (content : Str) :
    (∀ li ∈ find_all_links (get_content_section content).1, ∀ cands,
      resolve_link_target corpus li.target source = Resolution.Ambiguous cands →
      Issue.ambiguous li cands ∈ computeIssues corpus source (get_content_section content).1 ∧
      ∀ t c, Issue.wrong_format li t c
        ∉ computeIssues corpus source (get_content_section content).1) ∧
    ((∀ li2 t c, Issue.wrong_format li2 t c
        ∉ computeIssues corpus source (get_content_section content).1) →
      (check_and_fix_file corpus source content true).2.2 = none) := by
  constructor
  · intro li hli cands hres
    constructor
    · unfold computeIssues
      refine List.mem_filterMap.mpr ⟨li, hli, ?_⟩
      unfold issueOfLink
      rw [hres]
    · intro t c hmem
      unfold computeIssues at hmem
      obtain ⟨li2, hli2, hsome⟩ := List.mem_filterMap.mp hmem
      obtain ⟨heq, hres2⟩ := issueOfLink_wrong_format hsome
      subst heq
      rw [hres] at hres2
      exact Resolution.noConfusion hres2
  · intro hno
    have hfix : fixesOf (computeIssues corpus source (get_content_section content).1) = [] := by
      unfold fixesOf
      rw [List.filterMap_eq_nil_iff]
      intro iss hiss
      cases iss with
      | unresolved li => rfl
      | ambiguous li cands => rfl
      | wrong_format li t c => exact absurd hiss (hno li t c)
    simp only [check_and_fix_file]
    split
    · rfl
    · simp [hfix]

/-- C4 counterexample: the bare name `c` matches two corpus files, yet the
link-path normalizer rewrites `[[c]]` to the first-indexed qualified path
`[[a:c|c]]` instead of leaving it unchanged. -/
theorem normalizer_rewrites_ambiguous_cx :
    (nameToFiles [Doc.mk [['a']] ['c'], Doc.mk [['b']] ['c'], Doc.mk [] ['d']] ['c']).length
      = 2 ∧
    fix_file_chunks [Doc.mk [['a']] ['c'], Doc.mk [['b']] ['c'], Doc.mk [] ['d']]
        (build_element_index
          [SrcFile.mk (Doc.mk [['a']] ['c']) none [],
           SrcFile.mk (Doc.mk [['b']] ['c']) none [],
           SrcFile.mk (Doc.mk [] ['d']) none [Chunk.link ['c'] none]])
        [Chunk.link ['c'] none]
      = [Chunk.link ['a', ':', 'c'] (some ['c'])] ∧
    [Chunk.link ['a', ':', 'c'] (some ['c'])] ≠ [Chunk.link ['c'] none] := by
  constructor
  · decide
  · constructor
    · rfl
    · decide

/-- C9 amended: the single-file checker and the broken-link finder report a
link broken exactly when the literal path (colons to slashes, `.txt`
appended) is no corpus file — with no same-directory lookup and no fallback;
they scan the whole text, Backlinks block included, and also examine
`+`-links (which the forward parser skips); hence a bare link checks against
the corpus ROOT: in a subdirectory it is BROKEN unless a same-named file
exists at the root. -/
theorem literal_checker_spec (corpus : List Doc) (content : Str) (lp : Str) :
    (∀ li ∈ findLinksAll content,
      (li ∈ check_file_broken corpus content ↔
        literal_link_exists corpus li.target = false)) ∧
    (hasColon lp = false →
      literal_link_exists corpus lp = decide (Doc.mk [] lp ∈ corpus)) ∧
    (findLinksAll "[[+x]]".data).map (fun li => li.target) = [['+', 'x']] ∧
    find_all_links "[[+x]]".data = [] := by
  refine ⟨?_, ?_, by decide, by decide⟩
  · intro li hli
    unfold check_file_broken
    constructor
    · intro h
      have h2 := (List.mem_filter.mp h).2
      simpa using h2
    · intro h
      exact List.mem_filter.mpr ⟨hli, by simpa using h⟩
  · intro hc
    unfold literal_link_exists
    have hh : (lp.headD ' ' == ':') = false := by
      cases lp with
      | nil => rfl
      | cons c rest =>
        simp only [hasColon, Bool.or_eq_false_iff] at hc
        simpa using hc.1
    rw [hh]
    simp only [Bool.false_eq_true, if_false]
    rw [splitOnColon_of_colonFree lp hc]
    rfl

/-- C9 counterexample: `x.txt` exists both at the corpus root and in `d/`;
the bare same-directory link `[[x]]` inside `d/y.txt` resolves to `d/x.txt`,
yet the literal checker reports no broken link (it finds the root `x.txt`),
contradicting the claim that such a link is reported BROKEN. -/
theorem checker_bare_link_root_cx :
    resolve_link_target [Doc.mk [] ['x'], Doc.mk [['d']] ['x'], Doc.mk [['d']] ['y']]
        ['x'] (Doc.mk [['d']] ['y'])
      = Resolution.Resolved (Doc.mk [['d']] ['x']) ∧
    check_file_broken [Doc.mk [] ['x'], Doc.mk [['d']] ['x'], Doc.mk [['d']] ['y']]
        "[[x]]".data = [] := by
  decide
